import Mathlib

/-!
Verification of the ZinoCoder transcode-orchestration core against its
natural-language specification.  Each Go function named in a claim is
shallowly embedded as an executable Lean definition, translated from the
source in `internal/transcoder`, `internal/tree` (shipped inside
`internal/deleter/deleter.go`) and `internal/utils`; theorems about those
definitions settle the claims.

Modelling conventions:
* Go `float64` arithmetic in the progress parser is modelled over `ℚ`; an
  IEEE division by zero (which in Go silently yields a non-finite value,
  poisoning the result) is made observable as `Option.none` via `checkedDiv`.
* Go byte strings are Lean `String`s; where a claim hinges on byte-level
  prefix tests, paths are modelled as `List Char`.
* Go maps iterated with `range` have an unspecified, run-to-run randomized
  iteration order; such iterations are modelled by a nondeterministic
  relation over permutations of the entry list.
* Goroutine interleavings are modelled as labelled transition systems whose
  transitions are the lock-protected critical sections of the source.
-/

set_option autoImplicit false

namespace ZinoCoder

/-! ### Progress parsing (transcode.go: parseTimestamp, parseProgress) -/

/-- Division over `ℚ` that records a division by zero as `none`.  Go's
`float64` division by zero silently produces `±Inf`/`NaN`; the embedding
makes that event observable instead of inventing a value for it. -/
def checkedDiv (a b : ℚ) : Option ℚ :=
  if b = 0 then none else some (a / b)

/-- One record of the shared progress table (`Progress` in transcode.go):
completion percentage, wall-clock elapsed and estimated remaining time
(durations in seconds, modelled over `ℚ`). -/
structure ProgressEntry where
  percentage : ℚ
  elapsed : ℚ
  remaining : ℚ
deriving DecidableEq

/-- The arithmetic performed by `parseProgress` (transcode.go) for one
matched `out_time=` line, given the job's total duration (seconds, the
record's `Length` field), the parsed cumulative media time (seconds) and the
wall-clock elapsed time.  Source:
`progress := float64(currentTime) / float64(totalDuration) * 100` and
`remaining := time.Duration(float64(elapsed) * (100/progress - 1))`,
with no guard on either denominator. -/
def progressUpdate (totalDuration : ℤ) (currentTime : ℤ) (elapsed : ℚ) :
    Option ProgressEntry :=
  match checkedDiv (currentTime : ℚ) (totalDuration : ℚ) with
  | none => none
  | some r =>
    let progress := r * 100
    match checkedDiv 100 progress with
    | none => none
    | some q => some ⟨progress, elapsed, elapsed * (q - 1)⟩

/-- Go's `int(x)` conversion from `float64`: truncation toward zero
(floor for nonnegative values, ceiling — written as a negated floor so the
definition stays kernel-computable — for negative ones). -/
def truncQ (q : ℚ) : ℤ :=
  if 0 ≤ q then q.floor else -((-q).floor)

/-- Go `strings.Split` for a single-character separator, over byte strings
modelled as `List Char`.  `strings.Split("", sep)` is one empty field. -/
def splitOnChar (sep : Char) : List Char → List (List Char)
  | [] => [[]]
  | c :: cs =>
    let r := splitOnChar sep cs
    if c = sep then [] :: r
    else
      match r with
      | [] => [[c]]
      | f :: rest => (c :: f) :: rest

/-- Decimal-digit accumulator used to model `strconv.Atoi` on the digit
strings the progress regex admits; any non-digit character is a parse
error (`none`). -/
def digitsToNat (acc : ℕ) : List Char → Option ℕ
  | [] => some acc
  | c :: cs => if c.isDigit then digitsToNat (acc * 10 + (c.toNat - 48)) cs else none

/-- Go `strconv.Atoi` on the (sign-free) digit strings produced by the
progress regex; the empty string is a parse error. -/
def atoi? : List Char → Option ℕ
  | [] => none
  | s => digitsToNat 0 s

/-- Go `strconv.ParseFloat` restricted to the decimal forms admitted by the
progress regex (`\d+` or `\d+.\d+`); the parse error that Go's caller
discards with `_` leaves the value `0`. -/
def parseFloatOr0 (s : List Char) : ℚ :=
  match splitOnChar '.' s with
  | [a] => (((atoi? a).getD 0 : ℕ) : ℚ)
  | [a, b] =>
    match atoi? a, atoi? b with
    | some ia, some ib => (ia : ℚ) + (ib : ℚ) / ((10 : ℚ) ^ b.length)
    | _, _ => 0
  | _ => 0

/-- `parseTimestamp` (transcode.go): splits `H:MM:SS.ss` on `:`; a part
count other than 3 yields 0; `strconv.Atoi` errors are discarded (yielding
0); returns `int(hours*3600 + minutes*60 + int(seconds))`. -/
def parseTimestamp (timestamp : List Char) : ℤ :=
  match splitOnChar ':' timestamp with
  | [h, m, s] =>
    (((atoi? h).getD 0 : ℕ) : ℤ) * 3600 + (((atoi? m).getD 0 : ℕ) : ℤ) * 60 +
      truncQ (parseFloatOr0 s)
  | _ => 0

/-! ### Common base directory (transcode.go: FindCommonBaseDir) -/

/-- A video record as consumed by `FindCommonBaseDir`: only the absolute
`FullFilePath` matters; Go byte strings are modelled as `List Char`. -/
structure VideoPath where
  fullFilePath : List Char
deriving DecidableEq

/-- Joins path components with `/` separators (no leading slash). -/
def joinComps : List (List Char) → List Char
  | [] => []
  | [c] => c
  | c :: c2 :: cs => c ++ '/' :: joinComps (c2 :: cs)

/-- Renders components as a clean absolute path: `renderAbs [a,b] = "/a/b"`
and `renderAbs [] = "/"`. -/
def renderAbs (cs : List (List Char)) : List Char :=
  '/' :: joinComps cs

/-- Path components of a byte string: split on `/`, dropping empty fields. -/
def splitPath (p : List Char) : List (List Char) :=
  (splitOnChar '/' p).filter (fun c => !c.isEmpty)

/-- Go `filepath.Dir` on clean absolute paths: drops the final component
(`Dir "/a/b" = "/a"`, `Dir "/a" = "/"`, `Dir "/" = "/"`). -/
def dirP (p : List Char) : List Char :=
  renderAbs (splitPath p).dropLast

/-- Well-formed component list of a clean absolute path: every component is
nonempty and slash-free. -/
def wfComps (cs : List (List Char)) : Prop :=
  ∀ c ∈ cs, c ≠ [] ∧ '/' ∉ c

instance wfComps.instDecidable (cs : List (List Char)) : Decidable (wfComps cs) := by
  unfold wfComps
  infer_instance

/-- The walk-up loop inside `FindCommonBaseDir`: while the candidate is not
a byte prefix (`strings.HasPrefix`) of the record's directory, replace it by
its `filepath.Dir`; if it reaches `"/"` the whole function returns `"/"`
(modelled as `Sum.inl`), otherwise the loop exits with the candidate
(`Sum.inr`).  The fuel bounds the iteration count and is immaterial once it
exceeds the candidate's length. -/
def climb (videoDir : List Char) : List Char → ℕ → (List Char ⊕ List Char)
  | base, 0 => .inr base
  | base, fuel + 1 =>
    if base.isPrefixOf videoDir then .inr base
    else
      let b := dirP base
      if b = ['/'] then .inl ['/']
      else climb videoDir b fuel

/-- The per-record loop of `FindCommonBaseDir`; an early `return "/"` from
the inner loop aborts the whole traversal. -/
def findCommonBaseDirAux (base : List Char) : List (List Char) → List Char
  | [] => base
  | d :: ds =>
    match climb d base (base.length + 1) with
    | .inl r => r
    | .inr b => findCommonBaseDirAux b ds

/-- `FindCommonBaseDir` (transcode.go): returns `"/"` for an empty record
set; otherwise starts from the first record's directory and, for each
record, walks the candidate upward until it is a byte prefix of that
record's directory. -/
def FindCommonBaseDir (videos : List VideoPath) : List Char :=
  match videos with
  | [] => ['/']
  | v :: _ =>
    findCommonBaseDirAux (dirP v.fullFilePath)
      (videos.map (fun w => dirP w.fullFilePath))

/-- The filesystem-path ancestor relation asserted by the claim: directory
`d` equals `b` or lies strictly below it. -/
def isPathAncestor (b d : List Char) : Prop :=
  b = ['/'] ∨ b = d ∨ (b ++ ['/']) <+: d

instance isPathAncestor.instDecidable (b d : List Char) :
    Decidable (isPathAncestor b d) := by
  unfold isPathAncestor
  infer_instance

/-! ### Directory index (tree package: DirectoryNode, AddVideo, FilterFiles) -/

/-- A video record as consumed by the directory tree: its full path (the
record identity) and its containing directory (`Location`), as component
lists of clean absolute paths. -/
structure TVid where
  full : List String
  loc : List String
deriving DecidableEq

/-- `DirectoryNode` (tree package): name, absolute path (as components of a
clean absolute path), children keyed by name (a Go map; stored here in
creation order, with the map's random iteration order modelled separately),
and the video records directly in this directory. -/
inductive DNode : Type where
  | node (name : String) (path : List String) (children : List (String × DNode))
      (files : List TVid) : DNode

/-- The node's absolute path. -/
def DNode.path : DNode → List String
  | .node _ p _ _ => p

/-- The node's child map, in creation order. -/
def DNode.children : DNode → List (String × DNode)
  | .node _ _ ch _ => ch

/-- The node's own video records. -/
def DNode.files : DNode → List TVid
  | .node _ _ _ fs => fs

/-- Length of the longest common component prefix of two paths. -/
def commonPrefixLen : List String → List String → ℕ
  | a :: as, b :: bs => if a = b then commonPrefixLen as bs + 1 else 0
  | _, _ => 0

/-- Go `filepath.Rel(base, target)` on clean absolute component paths:
one `..` per component of `base` past the common prefix, then the remaining
`target` components; `Rel(x, x) = "."` is modelled as the empty list. -/
def relComps (base target : List String) : List String :=
  let k := commonPrefixLen base target
  List.replicate (base.length - k) ".." ++ target.drop k

/-- Go `filepath.Join(path, part)` for a single part: `Join` cleans its
result, so a `..` part removes the last component. -/
def joinComp (p : List String) (c : String) : List String :=
  if c = ".." then p.dropLast else p ++ [c]

/-- Lookup in the child map (`current.Children[part]`). -/
def lookupChild : List (String × DNode) → String → Option DNode
  | [], _ => none
  | (k, n) :: rest, key => if k = key then some n else lookupChild rest key

/-- Update of the child map (`current.Children[part] = child`); replaces the
first entry with the key, which is the only one since children are created
only when absent. -/
def updateChild : List (String × DNode) → String → DNode → List (String × DNode)
  | [], _, _ => []
  | (k, c) :: rest, key, n =>
    if k = key then (key, n) :: rest else (k, c) :: updateChild rest key n

/-- The create-or-traverse loop of `AddVideo` (tree package): walks the
relative-path parts from the current node, creating missing children with
`Path: filepath.Join(current.Path, part)`, and appends the video to the
final node's `Files`. -/
def insertAt : DNode → List String → TVid → DNode
  | .node nm p ch fs, [], v => .node nm p ch (fs ++ [v])
  | .node nm p ch fs, part :: parts, v =>
    match lookupChild ch part with
    | some c => .node nm p (updateChild ch part (insertAt c parts v)) fs
    | none =>
      .node nm p (ch ++ [(part, insertAt (.node part (joinComp p part) [] []) parts v)]) fs

/-- `AddVideo` (tree package): the relative path from the node's path to the
video's `Location` (`"."`, the empty parts list, keeps the video here),
then the walk. -/
def addVideo (n : DNode) (v : TVid) : DNode :=
  insertAt n (relComps n.path v.loc) v

/-- Index construction per the spec's `build(records)` contract:
`NewDirectoryNode(baseDir)` then one `AddVideo` per record, in order. -/
def buildTree (base : List String) (videos : List TVid) : DNode :=
  videos.foldl addVideo (.node (base.getLastD "/") base [] [])

mutual

/-- Big-step semantics of `FilterFiles` (tree package).  The source appends
the node's own matching files in order, then — when `recursive` — iterates
`range n.Children`, a Go map iteration whose order is unspecified and
randomized per call, appending each child's recursive result.  Each child's
result is independent of the iteration order, so a run is modelled as: one
result block per child (in stored order, `FilterRunEach`), concatenated in
an arbitrary order (a permutation of the blocks).  `FilterRun f rec n out`
holds iff some execution of `n.FilterFiles(f, rec)` can return `out`. -/
inductive FilterRun (f : TVid → Bool) : Bool → DNode → List TVid → Prop where
  | flat : ∀ nm p ch fs, FilterRun f false (.node nm p ch fs) (fs.filter f)
  | deep : ∀ nm p ch fs outs perm,
      FilterRunEach f ch outs →
      List.Perm outs perm →
      FilterRun f true (.node nm p ch fs) (fs.filter f ++ perm.flatten)

/-- One recursive result block per child, children in stored order. -/
inductive FilterRunEach (f : TVid → Bool) :
    List (String × DNode) → List (List TVid) → Prop where
  | nil : FilterRunEach f [] []
  | cons : ∀ (k : String) (cn : DNode) cs out outs,
      FilterRun f true cn out →
      FilterRunEach f cs outs →
      FilterRunEach f ((k, cn) :: cs) (out :: outs)

end

mutual

/-- Reference collection: the files of the whole subtree satisfying the
filter, with children taken in stored (creation) order. -/
def filterAll (f : TVid → Bool) : DNode → List TVid
  | .node _ _ ch fs => fs.filter f ++ filterAllL f ch

/-- `filterAll` over a child list. -/
def filterAllL (f : TVid → Bool) : List (String × DNode) → List TVid
  | [] => []
  | c :: cs => filterAll f c.2 ++ filterAllL f cs

end

mutual

/-- All nodes of the subtree, in pre-order (creation order of children). -/
def subnodes : DNode → List DNode
  | .node nm p ch fs => .node nm p ch fs :: subnodesL ch

/-- `subnodes` over a child list. -/
def subnodesL : List (String × DNode) → List DNode
  | [] => []
  | c :: cs => subnodes c.2 ++ subnodesL cs

end

/-- Structural invariant: every child's path extends its parent's by the
child's key (as `AddVideo` creates them). -/
def pathsOk (t : DNode) : Prop :=
  ∀ n ∈ subnodes t, ∀ e ∈ n.children, e.2.path = joinComp n.path e.1

/-- Placement invariant: every stored record sits at the node whose path
equals the record's containing directory. -/
def goodTree (t : DNode) : Prop :=
  ∀ n ∈ subnodes t, ∀ v ∈ n.files, n.path = v.loc

/-- Clean component list: no empty, `.` or `..` components. -/
def cleanComps (cs : List String) : Prop :=
  ∀ c ∈ cs, c ≠ "" ∧ c ≠ "." ∧ c ≠ ".."

instance cleanComps.instDecidable (cs : List String) : Decidable (cleanComps cs) := by
  unfold cleanComps
  infer_instance

/-- Demonstration record in directory /r/A. -/
def demoA : TVid :=
  ⟨["r", "A", "a.mp4"], ["r", "A"]⟩

/-- Demonstration record in directory /r/B. -/
def demoB : TVid :=
  ⟨["r", "B", "b.mp4"], ["r", "B"]⟩

/-- Demonstration node /r/A holding `demoA`. -/
def demoNodeA : DNode :=
  .node "A" ["r", "A"] [] [demoA]

/-- Demonstration node /r/B holding `demoB`. -/
def demoNodeB : DNode :=
  .node "B" ["r", "B"] [] [demoB]

/-- Demonstration tree with two children each holding one record. -/
def demoTree : DNode :=
  .node "r" ["r"] [("A", demoNodeA), ("B", demoNodeB)] []

/-! ### Local scheduler admission (transcode.go: startTranscoding) -/

/-- State of one `startTranscoding` invocation: the records the dispatch
loop has not yet reached, the number of jobs currently holding one of the
`maxConcurrent` admission slots (goroutines between their `sem <- struct..`
acquire and their final `<-sem` release), and the jobs dispatched so far in
dispatch order. -/
structure SchedState where
  pending : List VideoPath
  running : ℕ
  dispatched : List VideoPath
deriving DecidableEq

/-- Transitions of the admission machinery in `startTranscoding`: the
dispatch loop blocks on the buffered channel `sem` (capacity
`maxConcurrent = N`) before spawning each job, taking records in selection
order; a running job's final `<-sem` frees the slot.  No other code touches
the semaphore. -/
inductive SchedStep (N : ℕ) : SchedState → SchedState → Prop where
  | dispatch : ∀ (v : VideoPath) pending running dispatched,
      running < N →
      SchedStep N ⟨v :: pending, running, dispatched⟩
        ⟨pending, running + 1, dispatched ++ [v]⟩
  | finish : ∀ pending running dispatched,
      SchedStep N ⟨pending, running + 1, dispatched⟩ ⟨pending, running, dispatched⟩

/-- Reflexive-transitive reachability between scheduler states. -/
inductive SchedReach (N : ℕ) : SchedState → SchedState → Prop where
  | refl : ∀ s, SchedReach N s s
  | step : ∀ s t u, SchedReach N s t → SchedStep N t u → SchedReach N s u

/-- Initial state of `startTranscoding`: nothing dispatched, all slots
free. -/
def schedInit (selection : List VideoPath) : SchedState :=
  ⟨selection, 0, []⟩

/-! ### Distributed dispatcher credits (apitranscode.go) -/

/-- A remote worker slot (`Server`): its name and fixed concurrency
capacity (`concurrent`), which is the buffered capacity of its semaphore
channel. -/
structure WorkerSlot where
  name : String
  capacity : ℕ
deriving DecidableEq

/-- Initial credit state: every semaphore is filled to its capacity
(`StartAPITranscoding` fills each channel before dispatching). -/
def initCredits (roster : List WorkerSlot) : String → ℤ :=
  fun n =>
    match roster.find? (fun w => w.name = n) with
    | some w => (w.capacity : ℤ)
    | none => 0

/-- The `/callback` handler's credit action (`startCallbackServer`): look
the worker name up among the semaphores; if known, a nonblocking
`select`-send returns one credit only when the channel has room; an unknown
name changes nothing.  The handler acknowledges with 200 OK in every case
(second component). -/
def callbackStep (roster : List WorkerSlot) (s : String → ℤ) (nm : String) :
    (String → ℤ) × Bool :=
  match roster.find? (fun w => w.name = nm) with
  | some w =>
    (if s nm < (w.capacity : ℤ) then (fun n => if n = nm then s nm + 1 else s n) else s,
      true)
  | none => (s, true)

/-- Credit-state transitions of the distributed dispatcher: a dispatch
consumes a credit (`<-serverSemaphores[name]`, enabled only when one is
available); a dispatch transport error returns it with a blocking send
(enabled only when the channel has room — otherwise the goroutine blocks
and no transition fires); a completion callback acts via `callbackStep`. -/
inductive CreditStep (roster : List WorkerSlot) :
    (String → ℤ) → (String → ℤ) → Prop where
  | dispatch : ∀ (s : String → ℤ) (w : WorkerSlot), w ∈ roster → 1 ≤ s w.name →
      CreditStep roster s (fun n => if n = w.name then s w.name - 1 else s n)
  | errorReturn : ∀ (s : String → ℤ) (w : WorkerSlot), w ∈ roster →
      s w.name < (w.capacity : ℤ) →
      CreditStep roster s (fun n => if n = w.name then s w.name + 1 else s n)
  | callback : ∀ (s : String → ℤ) (nm : String),
      CreditStep roster s (callbackStep roster s nm).1

/-- Reflexive-transitive reachability of credit states. -/
inductive CreditReach (roster : List WorkerSlot) :
    (String → ℤ) → (String → ℤ) → Prop where
  | refl : ∀ s, CreditReach roster s s
  | step : ∀ s t u, CreditReach roster s t → CreditStep roster t u →
      CreditReach roster s u

/-- The roster hardcoded in `StartAPITranscoding`. -/
def demoRoster : List WorkerSlot :=
  [⟨"Server1", 2⟩, ⟨"Server2", 3⟩, ⟨"Server3", 3⟩]

/-! ### Distributed dispatch loop (apitranscode.go: StartAPITranscoding) -/

/-- One pass of the inner roster scan for a single record.  In the source,
each server gets a `select`: either `<-serverSemaphores[server.name]`
succeeds (a credit is consumed and a dispatch goroutine is spawned — the
trailing `break` terminates only the `select`, so the `for` moves on to the
NEXT server), or `default` hits and the loop continues.  Credits are paired
with names in roster order; the scan returns the updated credits and the
dispatch requests issued for this record.  The modelled schedule is the one
in which no completion callback arrives during the scan. -/
def scanServers (video : VideoPath) :
    List (String × ℕ) → (List (String × ℕ) × List (String × VideoPath))
  | [] => ([], [])
  | (nm, credits) :: rest =>
    let r := scanServers video rest
    if 0 < credits then ((nm, credits - 1) :: r.1, (nm, video) :: r.2)
    else ((nm, credits) :: r.1, r.2)

/-- The dispatch loop of `StartAPITranscoding` over the eligible records:
for each record in order, one scan of the roster; a record for which every
`select` hits `default` is simply skipped — there is no retry. -/
def dispatchLoop : List VideoPath → List (String × ℕ) →
    (List (String × ℕ) × List (String × VideoPath))
  | [], credits => (credits, [])
  | v :: vs, credits =>
    let r := scanServers v credits
    let rest := dispatchLoop vs r.1
    (rest.1, r.2 ++ rest.2)

/-! ### Per-job control flow (transcode.go: TranscodeAndRenameVideo,
APITranscode) and the progress tracker -/

/-- Environment oracle fixing the outcomes of one job's external
operations, in program order: the original-size stat, the stderr pipe, the
process start, the process exit status, and the output-size stat. -/
structure JobEnv where
  origSizeOk : Bool
  stderrPipeOk : Bool
  startOk : Bool
  waitOk : Bool
  outSizeOk : Bool
  outSize : ℤ
deriving DecidableEq

/-- The shared state a job touches: the ordered progress key list
(`progressKeys`), the progress map's key set (`progressMap`; the record
values are irrelevant to the claims), and the paths of the persisted
transcode results (`db.InsertTranscode`). -/
structure JobState where
  progressKeys : List (List Char)
  progressMap : List (List Char)
  inserted : List (List Char)
deriving DecidableEq

/-- A completion callback sent by `APITranscode` to the submitting client. -/
inductive CallbackMsg where
  | failed (path : List Char)
  | success (path : List Char) (newSize : ℤ)
deriving DecidableEq

/-- The progress-registration block (progressMutex held): if the key is
absent from the map, create a zero record and append the key to the ordered
list. -/
def registerProgress (st : JobState) (key : List Char) : JobState :=
  if key ∈ st.progressMap then st
  else
    { st with
      progressMap := st.progressMap ++ [key]
      progressKeys := st.progressKeys ++ [key] }

/-- The removal block after `cmd.Wait()` succeeds: `delete(progressMap,
key)`; the ordered key list is left untouched. -/
def removeProgress (st : JobState) (key : List Char) : JobState :=
  { st with progressMap := st.progressMap.filter (fun k => k ≠ key) }

/-- `TranscodeAndRenameVideo` (transcode.go) with the external world fixed
by `env`, returning the final shared state.  Source order: original-size
probe (early return), stderr pipe (early return), progress registration,
process start (early return), `cmd.Wait` (early return on failure — before
the progress-entry removal), progress-entry removal, output-size probe
(early return), result insert.  The concurrent `parseProgress` goroutine
and the space-saved/auto-delete bookkeeping are not modelled; neither
touches the claimed state transitions. -/
def TranscodeAndRenameVideo (env : JobEnv) (st : JobState) (key : List Char) :
    JobState :=
  if ¬env.origSizeOk then st
  else if ¬env.stderrPipeOk then st
  else
    let st1 := registerProgress st key
    if ¬env.startOk then st1
    else if ¬env.waitOk then st1
    else
      let st2 := removeProgress st1 key
      if ¬env.outSizeOk then st2
      else { st2 with inserted := st2.inserted ++ [key] }

/-- `APITranscode` (transcode.go, server part) with the external world
fixed by `env`: same control flow, but completion is reported by callback
(the server does not call `db.InsertTranscode`; the submitting client's
handler does).  Modelled for a job submitted with a nonempty callbackURL,
so the `if callbackURL != ""` guards are taken.  On an output-size-probe
failure the source sends the failure callback and then — there is no
`return` in that branch — falls through and also sends the success
callback built with `newSize = 0`. -/
def APITranscode (env : JobEnv) (st : JobState) (key : List Char) :
    JobState × List CallbackMsg :=
  if ¬env.origSizeOk then (st, [])
  else if ¬env.stderrPipeOk then (st, [])
  else
    let st1 := registerProgress st key
    if ¬env.startOk then (st1, [])
    else if ¬env.waitOk then (st1, [])
    else
      let st2 := removeProgress st1 key
      if ¬env.outSizeOk then
        (st2, [CallbackMsg.failed key, CallbackMsg.success key 0])
      else
        (st2, [CallbackMsg.success key env.outSize])

/-- Progress-tracker operations touching the shared table: registration at
job start and removal at job completion.  (`update` from the parser
overwrites a value and touches neither the key list nor the map domain.) -/
inductive TrackerEvent where
  | register (key : List Char)
  | stop (key : List Char)
deriving DecidableEq

/-- Apply one tracker operation. -/
def applyEvent (st : JobState) : TrackerEvent → JobState
  | .register k => registerProgress st k
  | .stop k => removeProgress st k

/-- Run a sequence of tracker operations from the empty table. -/
def runTracker (evs : List TrackerEvent) : JobState :=
  evs.foldl applyEvent ⟨[], [], []⟩

/-- The keys the display loop prints: it walks `progressKeys` in order and
skips keys no longer present in the map. -/
def displayKeys (st : JobState) : List (List Char) :=
  st.progressKeys.filter (fun k => k ∈ st.progressMap)

/-- Tracker events that never re-register a key that was registered and
later removed (the amended claim's domain): a registration is admissible
while the key is still in the map (idempotent re-register) or when the key
was never registered. -/
def eventOk (st : JobState) : TrackerEvent → Prop
  | .register k => k ∈ st.progressMap ∨ k ∉ st.progressKeys
  | .stop _ => True

/-- An admissible operation sequence from a given state. -/
inductive OkTrace : JobState → List TrackerEvent → Prop where
  | nil : ∀ st, OkTrace st []
  | cons : ∀ st e evs, eventOk st e → OkTrace (applyEvent st e) evs →
      OkTrace st (e :: evs)

instance eventOk.instDecidable (st : JobState) (e : TrackerEvent) :
    Decidable (eventOk st e) := by
  cases e with
  | register k =>
    unfold eventOk
    infer_instance
  | stop k =>
    unfold eventOk
    infer_instance

end ZinoCoder

namespace ZinoCoder

/-! ### Theorems -/

/-- C3 counterexample.  The claim states the progress computation is totally
guarded; in the source neither division is guarded.  With total duration 0
the percentage computation divides by zero, and with parsed media time 0
(a leading `out_time=00:00:00.00` line) the percentage is 0 and the
remaining-time computation divides by zero; both updates are undefined. -/
theorem C3_unguarded_counterexample :
    progressUpdate 0 600 10 = none ∧ progressUpdate 1200 0 10 = none := by
  constructor <;> norm_num [progressUpdate, checkedDiv]

/-- C3, amended.  The progress computation has no guards: the update for a
parsed line is well-defined exactly when the total duration supplied at job
start and the parsed media time are both nonzero; at total duration zero the
percentage computation divides by zero, and at percentage zero the
remaining-time computation divides by zero. -/
theorem C3_welldefined_iff (totalDuration currentTime : ℤ) (elapsed : ℚ) :
    (progressUpdate totalDuration currentTime elapsed).isSome ↔
      (totalDuration ≠ 0 ∧ currentTime ≠ 0) := by
  by_cases htd : (totalDuration : ℚ) = 0
  · have h0 : totalDuration = 0 := by exact_mod_cast htd
    subst h0
    simp [progressUpdate, checkedDiv]
  · have htd' : totalDuration ≠ 0 := fun h => htd (by exact_mod_cast h)
    by_cases hct : currentTime = 0
    · subst hct
      simp [progressUpdate, checkedDiv, htd]
    · have hc : (currentTime : ℚ) ≠ 0 := fun h => hct (by exact_mod_cast h)
      have hp : (currentTime : ℚ) / (totalDuration : ℚ) * 100 ≠ 0 :=
        mul_ne_zero (div_ne_zero hc htd) (by norm_num)
      simp [progressUpdate, checkedDiv, htd, hp, htd', hct]

/-- Batteries' `Rat.floor` agrees with Mathlib's floor on `ℚ`. -/
theorem ratFloor_eq (q : ℚ) : q.floor = ⌊q⌋ := rfl

/-- Helper: on a well-formed `H:MM:SS.ss` timestamp, `parseTimestamp`
computes `H*3600 + M*60 + floor(SS.ss)`. -/
theorem parseTimestamp_wellformed (ts hs ms ss a b : List Char) (h m sa sb : ℕ)
    (hts : splitOnChar ':' ts = [hs, ms, ss])
    (hh : atoi? hs = some h) (hm : atoi? ms = some m)
    (hss : splitOnChar '.' ss = [a, b])
    (ha : atoi? a = some sa) (hb : atoi? b = some sb)
    (hlt : sb < 10 ^ b.length) :
    parseTimestamp ts = (h : ℤ) * 3600 + (m : ℤ) * 60 + (sa : ℤ) := by
  have hfloat : parseFloatOr0 ss = (sa : ℚ) + (sb : ℚ) / ((10 : ℚ) ^ b.length) := by
    simp [parseFloatOr0, hss, ha, hb]
  have hx1 : (sb : ℚ) / ((10 : ℚ) ^ b.length) < 1 := by
    rw [div_lt_one (by positivity)]
    exact_mod_cast hlt
  have hx0 : (0 : ℚ) ≤ (sb : ℚ) / ((10 : ℚ) ^ b.length) := by positivity
  have hnn : (0 : ℚ) ≤ (sa : ℚ) + (sb : ℚ) / ((10 : ℚ) ^ b.length) := by positivity
  have hfl : ⌊(sa : ℚ) + (sb : ℚ) / ((10 : ℚ) ^ b.length)⌋ = (sa : ℤ) := by
    rw [Int.floor_eq_iff]
    refine ⟨by push_cast; linarith, by push_cast; linarith⟩
  simp [parseTimestamp, hts, hh, hm, truncQ, hfloat, hnn, ratFloor_eq, hfl]

/-- C9.  Parsing the media timestamp "00:10:00.00" yields 600 seconds and,
with total duration 1200 s, parseProgress computes a percentage of exactly
50 (with remaining = elapsed at the halfway point); in general a well-formed
H:MM:SS.ss timestamp parses to H*3600 + M*60 + floor(SS.ss) seconds, and the
computed percentage equals parsed seconds divided by total duration,
times 100. -/
theorem C9_timestamp_progress :
    parseTimestamp "00:10:00.00".toList = 600 ∧
    (∀ elapsed : ℚ,
      progressUpdate 1200 600 elapsed = some ⟨50, elapsed, elapsed⟩) ∧
    (∀ (ts hs ms ss a b : List Char) (h m sa sb : ℕ),
        splitOnChar ':' ts = [hs, ms, ss] →
        atoi? hs = some h → atoi? ms = some m →
        splitOnChar '.' ss = [a, b] →
        atoi? a = some sa → atoi? b = some sb → sb < 10 ^ b.length →
        parseTimestamp ts = (h : ℤ) * 3600 + (m : ℤ) * 60 + (sa : ℤ)) ∧
    (∀ (td ct : ℤ) (elapsed : ℚ), td ≠ 0 → ct ≠ 0 →
        ∃ rem : ℚ, progressUpdate td ct elapsed =
          some ⟨(ct : ℚ) / (td : ℚ) * 100, elapsed, rem⟩) := by
  refine ⟨?_, ?_, parseTimestamp_wellformed, ?_⟩
  · have h := parseTimestamp_wellformed "00:10:00.00".toList "00".toList "10".toList
      "00.00".toList "00".toList "00".toList 0 10 0 0 (by decide) (by decide) (by decide)
      (by decide) (by decide) (by decide) (by decide)
    rw [h]
    norm_num
  · intro elapsed
    have h2 : ((600 : ℤ) : ℚ) / ((1200 : ℤ) : ℚ) * 100 = 50 := by norm_num
    norm_num [progressUpdate, checkedDiv, h2]
  · intro td ct elapsed htd hct
    have htd' : ((td : ℚ)) ≠ 0 := fun hcast => htd (by exact_mod_cast hcast)
    have hct' : ((ct : ℚ)) ≠ 0 := fun hcast => hct (by exact_mod_cast hcast)
    have hp : (ct : ℚ) / (td : ℚ) * 100 ≠ 0 :=
      mul_ne_zero (div_ne_zero hct' htd') (by norm_num)
    refine ⟨elapsed * (100 / ((ct : ℚ) / (td : ℚ) * 100) - 1), ?_⟩
    simp [progressUpdate, checkedDiv, htd', hp]

/-- C9 witness: the general timestamp-parse clause at "01:02:03.50"
(3723 seconds) and the percentage clause at 60 of 600 seconds. -/
theorem C9_timestamp_progress_witness :
    parseTimestamp "01:02:03.50".toList = 3723 ∧
    (∃ rem : ℚ, progressUpdate 600 60 0 =
      some ⟨((60 : ℤ) : ℚ) / ((600 : ℤ) : ℚ) * 100, 0, rem⟩) := by
  constructor
  · have h := C9_timestamp_progress.2.2.1 "01:02:03.50".toList "01".toList "02".toList
      "03.50".toList "03".toList "50".toList 1 2 3 50 (by decide) (by decide) (by decide)
      (by decide) (by decide) (by decide) (by decide)
    rw [h]
    norm_num
  · exact C9_timestamp_progress.2.2.2 600 60 0 (by norm_num) (by norm_num)

/-- A slash-free byte string splits into a single field. -/
theorem splitOnChar_no_sep (c : List Char) (h : '/' ∉ c) :
    splitOnChar '/' c = [c] := by
  induction c with
  | nil => rfl
  | cons x xs ih =>
    have hx : x ≠ '/' := fun he => h (he ▸ List.mem_cons_self x xs)
    have hxs : '/' ∉ xs := fun hm => h (List.mem_cons_of_mem x hm)
    simp [splitOnChar, hx, ih hxs]

/-- Splitting a string that is a slash-free field, a slash, then a rest. -/
theorem splitOnChar_field_sep (c t : List Char) (h : '/' ∉ c) :
    splitOnChar '/' (c ++ '/' :: t) = c :: splitOnChar '/' t := by
  induction c with
  | nil => simp [splitOnChar]
  | cons x xs ih =>
    have hx : x ≠ '/' := fun he => h (he ▸ List.mem_cons_self x xs)
    have hxs : '/' ∉ xs := fun hm => h (List.mem_cons_of_mem x hm)
    simp [splitOnChar, hx, ih hxs]

/-- Joining well-formed components and splitting again recovers them. -/
theorem filter_splitOnChar_joinComps (cs : List (List Char)) (h : wfComps cs) :
    (splitOnChar '/' (joinComps cs)).filter (fun c => !c.isEmpty) = cs := by
  induction cs with
  | nil => rfl
  | cons c cs' ih =>
    obtain ⟨hne, hns⟩ := h c (List.mem_cons_self c cs')
    have hwf' : wfComps cs' := fun d hd => h d (List.mem_cons_of_mem c hd)
    cases cs' with
    | nil =>
      rw [show joinComps [c] = c from rfl, splitOnChar_no_sep c hns]
      cases c with
      | nil => exact absurd rfl hne
      | cons y ys => simp
    | cons c2 cs'' =>
      rw [show joinComps (c :: c2 :: cs'') = c ++ '/' :: joinComps (c2 :: cs'') from rfl,
        splitOnChar_field_sep _ _ hns]
      cases c with
      | nil => exact absurd rfl hne
      | cons y ys => simp [ih hwf']

/-- Splitting the rendering of well-formed components recovers them. -/
theorem splitPath_renderAbs (cs : List (List Char)) (h : wfComps cs) :
    splitPath (renderAbs cs) = cs := by
  unfold splitPath renderAbs
  rw [show splitOnChar '/' ('/' :: joinComps cs) = [] :: splitOnChar '/' (joinComps cs)
    from by simp [splitOnChar]]
  simpa using filter_splitOnChar_joinComps cs h

/-- `filepath.Dir` drops the last component of a clean absolute path. -/
theorem dirP_renderAbs (cs : List (List Char)) (h : wfComps cs) :
    dirP (renderAbs cs) = renderAbs cs.dropLast := by
  unfold dirP
  rw [splitPath_renderAbs cs h]

/-- A nonempty leading component makes the joined string nonempty. -/
theorem joinComps_ne_nil (c : List Char) (cs : List (List Char)) (hc : c ≠ []) :
    joinComps (c :: cs) ≠ [] := by
  cases cs with
  | nil => simpa [joinComps] using hc
  | cons c2 cs' => simp [joinComps]

/-- A nonempty well-formed component list does not render to the root. -/
theorem renderAbs_ne_root (cs : List (List Char)) (h : wfComps cs) (hne : cs ≠ []) :
    renderAbs cs ≠ ['/'] := by
  cases cs with
  | nil => exact absurd rfl hne
  | cons c cs' =>
    obtain ⟨hc, -⟩ := h c (List.mem_cons_self c cs')
    intro he
    exact joinComps_ne_nil c cs' hc (by simpa [renderAbs] using he)

/-- The rendering of a component list is at least as long as the list. -/
theorem length_le_renderAbs (cs : List (List Char)) :
    cs.length ≤ (renderAbs cs).length := by
  induction cs with
  | nil => simp [renderAbs, joinComps]
  | cons c cs' ih =>
    cases cs' with
    | nil => simp [renderAbs, joinComps]
    | cons c2 cs'' =>
      simp only [renderAbs, joinComps, List.length_cons, List.length_append] at ih ⊢
      omega

/-- Joining a take of the components yields a byte prefix of the join. -/
theorem joinComps_take_le (k : ℕ) (cs : List (List Char)) :
    joinComps (cs.take k) <+: joinComps cs := by
  induction cs generalizing k with
  | nil => simp
  | cons c cs' ih =>
    cases k with
    | zero => simp [joinComps]
    | succ k' =>
      cases cs' with
      | nil => simp [joinComps]
      | cons c2 cs'' =>
        cases k' with
        | zero =>
          simp only [List.take_succ_cons, List.take_zero, joinComps]
          exact ⟨'/' :: joinComps (c2 :: cs''), rfl⟩
        | succ k'' =>
          have h := ih (k'' + 1)
          simp only [List.take_succ_cons] at h ⊢
          simp only [joinComps]
          exact (List.prefix_append_right_inj c).mpr
            ((List.cons_prefix_cons).mpr ⟨rfl, h⟩)

/-- Rendering a take of the components yields a byte prefix of the path. -/
theorem renderAbs_take_le (k : ℕ) (cs : List (List Char)) :
    renderAbs (cs.take k) <+: renderAbs cs :=
  (List.cons_prefix_cons).mpr ⟨rfl, joinComps_take_le k cs⟩

/-- The root path is a byte prefix of every rendered absolute path. -/
theorem root_le_renderAbs (cs : List (List Char)) :
    ['/'] <+: renderAbs cs :=
  (List.cons_prefix_cons).mpr ⟨rfl, List.nil_prefix⟩

/-- Dropping the last component preserves well-formedness. -/
theorem wfComps_dropLast (cs : List (List Char)) (h : wfComps cs) :
    wfComps cs.dropLast :=
  fun c hc => h c (List.dropLast_sublist cs |>.mem hc)

/-- Taking a prefix of the components preserves well-formedness. -/
theorem wfComps_take (k : ℕ) (cs : List (List Char)) (h : wfComps cs) :
    wfComps (cs.take k) :=
  fun c hc => h c (List.take_sublist k cs |>.mem hc)

/-- Specification of the walk-up loop on a clean absolute candidate: it
either triggers the early `return "/"`, or exits with a take of the
candidate's components that is a byte prefix of the record's directory. -/
theorem climb_spec (d : List Char) (fuel : ℕ) :
    ∀ cs : List (List Char), wfComps cs → cs.length < fuel →
    climb d (renderAbs cs) fuel = Sum.inl ['/'] ∨
      ∃ k, climb d (renderAbs cs) fuel = Sum.inr (renderAbs (cs.take k)) ∧
        renderAbs (cs.take k) <+: d := by
  induction fuel with
  | zero => intro cs _ hlt; omega
  | succ fuel ih =>
    intro cs hwf hlt
    by_cases hpre : (renderAbs cs).isPrefixOf d
    · right
      refine ⟨cs.length, ?_, ?_⟩
      · simp [climb, hpre, List.take_length]
      · rw [List.take_length]
        exact List.isPrefixOf_iff_prefix.mp hpre
    · by_cases hnil : cs.dropLast = []
      · left
        have hroot : dirP (renderAbs cs) = ['/'] := by
          rw [dirP_renderAbs cs hwf, hnil]
          rfl
        simp [climb, hpre, hroot]
      · have hd : dirP (renderAbs cs) = renderAbs cs.dropLast := dirP_renderAbs cs hwf
        have hnr : renderAbs cs.dropLast ≠ ['/'] :=
          renderAbs_ne_root _ (wfComps_dropLast cs hwf) hnil
        have hcs : cs ≠ [] := by
          intro h0
          exact hnil (by rw [h0]; rfl)
        have hlen : cs.dropLast.length < fuel := by
          have := List.length_dropLast cs
          have hpos : 0 < cs.length := List.length_pos.mpr hcs
          omega
        have step : climb d (renderAbs cs) (fuel + 1) =
            climb d (renderAbs cs.dropLast) fuel := by
          simp [climb, hpre, hd, hnr]
        rcases ih cs.dropLast (wfComps_dropLast cs hwf) hlen with hcase | ⟨k, heq, hp⟩
        · left
          rw [step, hcase]
        · right
          refine ⟨min k (cs.length - 1), ?_, ?_⟩
          · rw [step, heq, List.dropLast_eq_take, List.take_take]
          · rw [List.dropLast_eq_take, List.take_take] at hp
            exact hp

/-- Specification of the per-record loop: starting from a clean absolute
candidate, the final base is a byte prefix of the starting candidate and of
every processed directory (all clean absolute paths). -/
theorem findCommonBaseDirAux_spec :
    ∀ (dirs : List (List Char)) (cs : List (List Char)), wfComps cs →
      (∀ d ∈ dirs, ∃ es, wfComps es ∧ d = renderAbs es) →
      findCommonBaseDirAux (renderAbs cs) dirs <+: renderAbs cs ∧
        ∀ d ∈ dirs, findCommonBaseDirAux (renderAbs cs) dirs <+: d := by
  intro dirs
  induction dirs with
  | nil =>
    intro cs _ _
    exact ⟨List.prefix_rfl, by simp⟩
  | cons d ds ih =>
    intro cs hwf hdirs
    have hfuel : cs.length < (renderAbs cs).length + 1 :=
      Nat.lt_succ_of_le (length_le_renderAbs cs)
    rcases climb_spec d ((renderAbs cs).length + 1) cs hwf hfuel with hcase | ⟨k, heq, hp⟩
    · have hres : findCommonBaseDirAux (renderAbs cs) (d :: ds) = ['/'] := by
        simp [findCommonBaseDirAux, hcase]
      rw [hres]
      refine ⟨root_le_renderAbs cs, ?_⟩
      intro d' hd'
      obtain ⟨es, -, hre⟩ := hdirs d' hd'
      rw [hre]
      exact root_le_renderAbs es
    · have hres : findCommonBaseDirAux (renderAbs cs) (d :: ds) =
          findCommonBaseDirAux (renderAbs (cs.take k)) ds := by
        simp [findCommonBaseDirAux, heq]
      obtain ⟨h1, h2⟩ := ih (cs.take k) (wfComps_take k cs hwf)
        (fun d' hd' => hdirs d' (List.mem_cons_of_mem d hd'))
      rw [hres]
      refine ⟨h1.trans (renderAbs_take_le k cs), ?_⟩
      intro d' hd'
      rcases List.mem_cons.mp hd' with rfl | hmem
      · exact h1.trans hp
      · exact h2 d' hmem

/-- C4 counterexample.  For records "/lib/a/x.mp4" and "/lib/ab/y.mp4" the
computed common base is "/lib/a" — `strings.HasPrefix("/lib/ab", "/lib/a")`
holds at the byte level — yet "/lib/ab" is not a filesystem-path descendant
of "/lib/a", so the claimed path-ancestor property fails. -/
theorem C4_not_path_ancestor_counterexample :
    FindCommonBaseDir [⟨"/lib/a/x.mp4".toList⟩, ⟨"/lib/ab/y.mp4".toList⟩] =
        "/lib/a".toList ∧
      dirP "/lib/ab/y.mp4".toList = "/lib/ab".toList ∧
      ¬ isPathAncestor "/lib/a".toList "/lib/ab".toList := by
  refine ⟨by decide, by decide, by decide⟩

/-- C4, amended.  For every non-empty set of records with clean absolute
paths, the common base directory computed at index-build time is a
byte-string ancestor of every record's containing directory (the directory
string starts with the base, in the `strings.HasPrefix` sense — not
necessarily a whole-component filesystem ancestor), falling back to the
root "/"; for the empty set it returns "/". -/
theorem C4_string_prefix_base (videos : List VideoPath)
    (hwf : ∀ v ∈ videos, ∃ cs, wfComps cs ∧ v.fullFilePath = renderAbs cs) :
    (videos = [] → FindCommonBaseDir videos = ['/']) ∧
    ∀ v ∈ videos, FindCommonBaseDir videos <+: dirP v.fullFilePath := by
  constructor
  · intro h
    subst h
    rfl
  · intro v hv
    cases videos with
    | nil => cases hv
    | cons v0 vs =>
      obtain ⟨cs0, hwf0, he0⟩ := hwf v0 (List.mem_cons_self v0 vs)
      have hdirs : ∀ d ∈ (v0 :: vs).map (fun w => dirP w.fullFilePath),
          ∃ es, wfComps es ∧ d = renderAbs es := by
        intro d hd
        obtain ⟨w, hw, rfl⟩ := List.mem_map.mp hd
        obtain ⟨csw, hwfw, hew⟩ := hwf w hw
        exact ⟨csw.dropLast, wfComps_dropLast csw hwfw,
          by rw [hew, dirP_renderAbs csw hwfw]⟩
      have hbase : dirP v0.fullFilePath = renderAbs cs0.dropLast := by
        rw [he0, dirP_renderAbs cs0 hwf0]
      have hspec := findCommonBaseDirAux_spec
        ((v0 :: vs).map (fun w => dirP w.fullFilePath))
        cs0.dropLast (wfComps_dropLast cs0 hwf0) hdirs
      have hgoal : FindCommonBaseDir (v0 :: vs) =
          findCommonBaseDirAux (renderAbs cs0.dropLast)
            ((v0 :: vs).map (fun w => dirP w.fullFilePath)) := by
        simp only [FindCommonBaseDir, hbase]
      rw [hgoal]
      exact hspec.2 (dirP v.fullFilePath) (List.mem_map.mpr ⟨v, hv, rfl⟩)

/-- C4 witness: the amended theorem applied to two concrete clean records
"/a/b/x.mp4" and "/a/c/y.mp4". -/
theorem C4_string_prefix_base_witness :
    FindCommonBaseDir [⟨"/a/b/x.mp4".toList⟩, ⟨"/a/c/y.mp4".toList⟩] <+:
      dirP "/a/b/x.mp4".toList := by
  have hwf : ∀ v ∈ [VideoPath.mk "/a/b/x.mp4".toList, VideoPath.mk "/a/c/y.mp4".toList],
      ∃ cs, wfComps cs ∧ v.fullFilePath = renderAbs cs := by
    intro v hv
    rcases List.mem_cons.mp hv with rfl | hv2
    · exact ⟨["a".toList, "b".toList, "x.mp4".toList], by decide, by decide⟩
    · rcases List.mem_cons.mp hv2 with rfl | hv3
      · exact ⟨["a".toList, "c".toList, "y.mp4".toList], by decide, by decide⟩
      · cases hv3
  exact (C4_string_prefix_base _ hwf).2 _ (List.mem_cons_self _ _)

/-- A block of a concatenation can be pulled to the front, up to
permutation. -/
theorem perm_pull_front {α : Type} (x l m : List α) :
    (l ++ (x ++ m)).Perm (x ++ (l ++ m)) := by
  rw [show l ++ (x ++ m) = (l ++ x) ++ m from (List.append_assoc l x m).symm,
    show x ++ (l ++ m) = (x ++ l) ++ m from (List.append_assoc x l m).symm]
  exact (List.perm_append_comm).append_right m

/-- `filterAllL` distributes over concatenation of child lists. -/
theorem filterAllL_append (f : TVid → Bool) (l1 l2 : List (String × DNode)) :
    filterAllL f (l1 ++ l2) = filterAllL f l1 ++ filterAllL f l2 := by
  induction l1 with
  | nil => simp [filterAllL]
  | cons c cs ih => simp [filterAllL, ih]

/-- `subnodesL` distributes over concatenation of child lists. -/
theorem subnodesL_append (l1 l2 : List (String × DNode)) :
    subnodesL (l1 ++ l2) = subnodesL l1 ++ subnodesL l2 := by
  induction l1 with
  | nil => simp [subnodesL]
  | cons c cs ih => simp [subnodesL, ih]

/-- Membership in the collected subnodes of a child list. -/
theorem mem_subnodesL {n : DNode} {ch : List (String × DNode)} :
    n ∈ subnodesL ch ↔ ∃ e ∈ ch, n ∈ subnodes e.2 := by
  induction ch with
  | nil => simp [subnodesL]
  | cons c cs ih => simp [subnodesL, List.mem_append, ih]

/-- Unfolding of the path invariant at one node. -/
theorem pathsOk_node {nm : String} {p : List String} {ch : List (String × DNode)}
    {fs : List TVid} :
    pathsOk (.node nm p ch fs) ↔
      ∀ e ∈ ch, e.2.path = joinComp p e.1 ∧ pathsOk e.2 := by
  constructor
  · intro h e he
    refine ⟨h (.node nm p ch fs) (by simp [subnodes]) e he, ?_⟩
    intro n hn e' he'
    exact h n (by simp [subnodes, mem_subnodesL]; right; exact ⟨e.1, e.2, he, hn⟩) e' he'
  · intro h n hn e' he'
    rcases (by simpa [subnodes, mem_subnodesL] using hn :
        n = DNode.node nm p ch fs ∨ ∃ e ∈ ch, n ∈ subnodes e.2) with rfl | ⟨e, he, hsub⟩
    · exact (h e' he').1
    · exact (h e he).2 n hsub e' he'

/-- Unfolding of the placement invariant at one node. -/
theorem goodTree_node {nm : String} {p : List String} {ch : List (String × DNode)}
    {fs : List TVid} :
    goodTree (.node nm p ch fs) ↔
      (∀ v ∈ fs, p = v.loc) ∧ ∀ e ∈ ch, goodTree e.2 := by
  constructor
  · intro h
    refine ⟨fun v hv => h (.node nm p ch fs) (by simp [subnodes]) v hv, ?_⟩
    intro e he n hn v hv
    exact h n (by simp [subnodes, mem_subnodesL]; right; exact ⟨e.1, e.2, he, hn⟩) v hv
  · intro h n hn v hv
    rcases (by simpa [subnodes, mem_subnodesL] using hn :
        n = DNode.node nm p ch fs ∨ ∃ e ∈ ch, n ∈ subnodes e.2) with rfl | ⟨e, he, hsub⟩
    · exact h.1 v hv
    · exact h.2 e he n hsub v hv

/-- `insertAt` never changes the root node's path. -/
theorem insertAt_path (t : DNode) (parts : List String) (v : TVid) :
    (insertAt t parts v).path = t.path := by
  cases t with
  | node nm p ch fs =>
    cases parts with
    | nil => rfl
    | cons a as =>
      cases h : lookupChild ch a <;> simp [insertAt, h, DNode.path]

/-- A successful child lookup splits the child list; the matching update
replaces exactly that entry. -/
theorem lookupChild_split {ch : List (String × DNode)} {key : String} {c : DNode}
    (h : lookupChild ch key = some c) :
    ∃ l1 l2, ch = l1 ++ (key, c) :: l2 ∧ (∀ e ∈ l1, e.1 ≠ key) ∧
      ∀ n : DNode, updateChild ch key n = l1 ++ (key, n) :: l2 := by
  induction ch with
  | nil => simp [lookupChild] at h
  | cons e rest ih =>
    obtain ⟨k, c0⟩ := e
    by_cases hk : k = key
    · subst hk
      rw [lookupChild, if_pos rfl] at h
      obtain rfl : c0 = c := by injection h
      exact ⟨[], rest, by simp, by simp, fun n => by simp [updateChild]⟩
    · rw [lookupChild, if_neg hk] at h
      obtain ⟨l1, l2, hch, hkeys, hupd⟩ := ih h
      refine ⟨(k, c0) :: l1, l2, by simp [hch], ?_, ?_⟩
      · intro e' he'
        rcases List.mem_cons.mp he' with rfl | hmem
        · exact hk
        · exact hkeys e' hmem
      · intro n
        simp [updateChild, hk, hupd n]

/-- Inserting a video anywhere adds exactly its filtered contribution to the
collected filter results, up to permutation. -/
theorem filterAll_insertAt (f : TVid → Bool) :
    ∀ (parts : List String) (t : DNode) (v : TVid),
    (filterAll f (insertAt t parts v)).Perm (List.filter f [v] ++ filterAll f t) := by
  intro parts
  induction parts with
  | nil =>
    intro t v
    cases t with
    | node nm p ch fs =>
      simp only [insertAt, filterAll, List.filter_append, List.append_assoc]
      exact perm_pull_front _ _ _
  | cons part parts ih =>
    intro t v
    cases t with
    | node nm p ch fs =>
      cases hl : lookupChild ch part with
      | some c =>
        obtain ⟨l1, l2, hch, hkeys, hupd⟩ := lookupChild_split hl
        simp only [insertAt, hl]
        rw [hupd]
        subst hch
        simp only [filterAll, filterAllL_append, filterAllL, List.append_assoc]
        have hIH := ih c v
        have s1 : (filterAll f (insertAt c parts v) ++ filterAllL f l2).Perm
            (List.filter f [v] ++ (filterAll f c ++ filterAllL f l2)) := by
          rw [show List.filter f [v] ++ (filterAll f c ++ filterAllL f l2) =
              (List.filter f [v] ++ filterAll f c) ++ filterAllL f l2 from
            (List.append_assoc _ _ _).symm]
          exact hIH.append_right _
        have s2 := (s1.append_left (filterAllL f l1)).trans (perm_pull_front _ _ _)
        exact (s2.append_left (fs.filter f)).trans (perm_pull_front _ _ _)
      | none =>
        simp only [insertAt, hl]
        simp only [filterAll, filterAllL_append, filterAllL, List.append_assoc,
          List.append_nil]
        have hIH := ih (.node part (joinComp p part) [] []) v
        simp only [filterAll, filterAllL, List.filter_nil, List.append_nil] at hIH
        have s1 : (filterAllL f ch ++ filterAll f (insertAt
            (.node part (joinComp p part) [] []) parts v)).Perm
            (List.filter f [v] ++ filterAllL f ch) :=
          (hIH.append_left _).trans List.perm_append_comm
        exact (s1.append_left (fs.filter f)).trans (perm_pull_front _ _ _)

/-- Collecting over `AddVideo` adds the video's filtered contribution. -/
theorem filterAll_addVideo (f : TVid → Bool) (t : DNode) (v : TVid) :
    (filterAll f (addVideo t v)).Perm (List.filter f [v] ++ filterAll f t) :=
  filterAll_insertAt f (relComps t.path v.loc) t v

/-- Folding `AddVideo` over a record list collects exactly the filtered
records plus the initial tree's records, up to permutation. -/
theorem filterAll_foldl_addVideo (f : TVid → Bool) :
    ∀ (videos : List TVid) (t : DNode),
    (filterAll f (videos.foldl addVideo t)).Perm (videos.filter f ++ filterAll f t) := by
  intro videos
  induction videos with
  | nil =>
    intro t
    simp
  | cons v vs ih =>
    intro t
    have h1 := ih (addVideo t v)
    have h2 := (filterAll_addVideo f t v).append_left (vs.filter f)
    simp only [List.foldl_cons]
    refine (h1.trans (h2.trans ?_))
    refine (perm_pull_front _ _ _).trans ?_
    rw [show List.filter f [v] ++ (List.filter f vs ++ filterAll f t) =
        (List.filter f [v] ++ List.filter f vs) ++ filterAll f t from
      (List.append_assoc _ _ _).symm]
    rw [← List.filter_append, List.singleton_append]

/-- The child collection is the flattening of the per-child collections. -/
theorem filterAllL_eq_flatten (f : TVid → Bool) (cs : List (String × DNode)) :
    filterAllL f cs = (cs.map (fun c => filterAll f c.2)).flatten := by
  induction cs with
  | nil => simp [filterAllL]
  | cons c cs' ih => simp [filterAllL, ih]

mutual

/-- Every recursive `FilterFiles` run returns a permutation of the reference
collection of its node, whatever child order the map iteration produced. -/
theorem filterRun_perm {f : TVid → Bool} (n : DNode) (out : List TVid)
    (h : FilterRun f true n out) : out.Perm (filterAll f n) := by
  cases h with
  | deep nm p ch fs outs perm heach hperm =>
    have h1 : outs.flatten.Perm (filterAllL f ch) := filterRunEach_perm ch outs heach
    have h2 : perm.flatten.Perm (filterAllL f ch) := (hperm.flatten.symm).trans h1
    exact h2.append_left (fs.filter f)
termination_by sizeOf n
decreasing_by
  simp
  omega

/-- Children version of `filterRun_perm`: the blocks flatten to the
reference collection, up to permutation. -/
theorem filterRunEach_perm {f : TVid → Bool} (cs : List (String × DNode))
    (outs : List (List TVid)) (h : FilterRunEach f cs outs) :
    outs.flatten.Perm (filterAllL f cs) := by
  cases h with
  | nil => exact List.Perm.refl _
  | cons ck cv cs' o os hrun hrest =>
    exact (filterRun_perm cv o hrun).append (filterRunEach_perm cs' os hrest)
termination_by sizeOf cs
decreasing_by
  all_goals simp
  all_goals omega

end

/-- The non-recursive `FilterFiles` run is deterministic: it returns the
node's own files, filtered, in stored order. -/
theorem filterRun_flat_eq {f : TVid → Bool} {n : DNode} {out : List TVid}
    (h : FilterRun f false n out) : out = n.files.filter f := by
  cases h
  rfl

mutual

/-- Collecting with the always-true filter flattens the files of all
subnodes, in pre-order. -/
theorem filterAll_true_eq : ∀ (t : DNode),
    filterAll (fun _ => true) t = ((subnodes t).map DNode.files).flatten
  | .node nm p ch fs => by
    simp only [filterAll, subnodes, List.map_cons, List.flatten_cons, DNode.files]
    rw [List.filter_true, filterAllL_true_eq ch]

/-- Children version of `filterAll_true_eq`. -/
theorem filterAllL_true_eq : ∀ (cs : List (String × DNode)),
    filterAllL (fun _ => true) cs = ((subnodesL cs).map DNode.files).flatten
  | [] => by simp [filterAllL, subnodesL]
  | c :: cs' => by
    simp only [filterAllL, subnodesL, List.map_append, List.flatten_append]
    rw [filterAll_true_eq c.2, filterAllL_true_eq cs']

end

/-- The common component prefix is no longer than the left path. -/
theorem commonPrefixLen_le_left (a : List String) :
    ∀ b : List String, commonPrefixLen a b ≤ a.length := by
  induction a with
  | nil => intro b; cases b <;> simp [commonPrefixLen]
  | cons x xs ih =>
    intro b
    cases b with
    | nil => simp [commonPrefixLen]
    | cons y ys =>
      by_cases hxy : x = y
      · have := ih ys
        simp only [commonPrefixLen, if_pos hxy, List.length_cons]
        omega
      · simp [commonPrefixLen, hxy]

/-- Up to the common prefix length, the two paths agree. -/
theorem take_commonPrefixLen_eq (a : List String) :
    ∀ b : List String, a.take (commonPrefixLen a b) = b.take (commonPrefixLen a b) := by
  induction a with
  | nil => intro b; cases b <;> simp [commonPrefixLen]
  | cons x xs ih =>
    intro b
    cases b with
    | nil => simp [commonPrefixLen]
    | cons y ys =>
      by_cases hxy : x = y
      · subst hxy
        have h : commonPrefixLen (x :: xs) (x :: ys) = commonPrefixLen xs ys + 1 := by
          simp [commonPrefixLen]
        rw [h, List.take_succ_cons, List.take_succ_cons, ih ys]
      · simp [commonPrefixLen, hxy]

/-- Folding `..` components climbs the path. -/
theorem foldl_joinComp_replicate (m : ℕ) :
    ∀ p : List String,
      List.foldl joinComp p (List.replicate m "..") = p.take (p.length - m) := by
  induction m with
  | zero =>
    intro p
    simp
  | succ m ih =>
    intro p
    simp only [List.replicate_succ, List.foldl_cons]
    rw [show joinComp p ".." = p.dropLast from by simp [joinComp]]
    rw [ih p.dropLast, List.dropLast_eq_take, List.take_take]
    congr 1
    simp only [List.length_take]
    omega

/-- Folding clean components descends the path. -/
theorem foldl_joinComp_clean :
    ∀ (rest q : List String), (∀ c ∈ rest, c ≠ "..") →
      List.foldl joinComp q rest = q ++ rest := by
  intro rest
  induction rest with
  | nil =>
    intro q _
    simp
  | cons r rs ih =>
    intro q hcl
    simp only [List.foldl_cons]
    rw [show joinComp q r = q ++ [r] from by
      simp [joinComp, hcl r (List.mem_cons_self r rs)]]
    rw [ih (q ++ [r]) (fun c hc => hcl c (List.mem_cons_of_mem r hc))]
    simp

/-- The relative path computed by `Rel` leads from the base back to the
target: `Join(base, Rel(base, target)) = target` for clean targets. -/
theorem foldl_joinComp_relComps (base loc : List String) (hloc : cleanComps loc) :
    List.foldl joinComp base (relComps base loc) = loc := by
  unfold relComps
  rw [List.foldl_append, foldl_joinComp_replicate]
  have hk := commonPrefixLen_le_left base loc
  rw [show base.length - (base.length - commonPrefixLen base loc) =
      commonPrefixLen base loc from by omega]
  rw [foldl_joinComp_clean _ _
    (fun c hc => (hloc c (List.drop_subset _ _ hc)).2.2)]
  rw [take_commonPrefixLen_eq base loc, List.take_append_drop]

/-- `insertAt` preserves the path and placement invariants when the walked
parts lead from the node's path to the video's directory. -/
theorem insertAt_invariants :
    ∀ (parts : List String) (t : DNode) (v : TVid),
      pathsOk t → goodTree t → List.foldl joinComp t.path parts = v.loc →
      pathsOk (insertAt t parts v) ∧ goodTree (insertAt t parts v) := by
  intro parts
  induction parts with
  | nil =>
    intro t v hp hg hfold
    cases t with
    | node nm p ch fs =>
      simp only [DNode.path, List.foldl_nil] at hfold
      simp only [insertAt]
      constructor
      · rw [pathsOk_node]
        exact pathsOk_node.mp hp
      · rw [goodTree_node]
        obtain ⟨hfs, hch⟩ := goodTree_node.mp hg
        refine ⟨?_, hch⟩
        intro w hw
        rcases List.mem_append.mp hw with hw1 | hw2
        · exact hfs w hw1
        · rcases List.mem_singleton.mp hw2 with rfl
          exact hfold
  | cons part parts ih =>
    intro t v hp hg hfold
    cases t with
    | node nm p ch fs =>
      simp only [DNode.path, List.foldl_cons] at hfold
      cases hl : lookupChild ch part with
      | some c =>
        obtain ⟨l1, l2, hch, hkeys, hupd⟩ := lookupChild_split hl
        have hcch : (part, c) ∈ ch := by
          rw [hch]
          exact List.mem_append_right _ (List.mem_cons_self _ _)
        have hcpath : c.path = joinComp p part := (pathsOk_node.mp hp (part, c) hcch).1
        have hcpok : pathsOk c := (pathsOk_node.mp hp (part, c) hcch).2
        have hcgood : goodTree c := (goodTree_node.mp hg).2 (part, c) hcch
        have hfold' : List.foldl joinComp c.path parts = v.loc := by
          rw [hcpath]
          exact hfold
        obtain ⟨hp', hg'⟩ := ih c v hcpok hcgood hfold'
        simp only [insertAt, hl]
        rw [hupd]
        constructor
        · rw [pathsOk_node]
          intro e he
          rcases List.mem_append.mp he with h1 | h2
          · exact pathsOk_node.mp hp e (by rw [hch]; exact List.mem_append_left _ h1)
          · rcases List.mem_cons.mp h2 with rfl | h3
            · refine ⟨?_, hp'⟩
              rw [show ((part, insertAt c parts v) : String × DNode).2 = insertAt c parts v
                from rfl, insertAt_path, hcpath]
            · exact pathsOk_node.mp hp e
                (by rw [hch]; exact List.mem_append_right _ (List.mem_cons_of_mem _ h3))
        · rw [goodTree_node]
          obtain ⟨hfs, hchg⟩ := goodTree_node.mp hg
          refine ⟨hfs, ?_⟩
          intro e he
          rcases List.mem_append.mp he with h1 | h2
          · exact hchg e (by rw [hch]; exact List.mem_append_left _ h1)
          · rcases List.mem_cons.mp h2 with rfl | h3
            · exact hg'
            · exact hchg e
                (by rw [hch]; exact List.mem_append_right _ (List.mem_cons_of_mem _ h3))
      | none =>
        have hleafp : pathsOk (DNode.node part (joinComp p part) [] []) := by
          rw [pathsOk_node]
          intro e he
          cases he
        have hleafg : goodTree (DNode.node part (joinComp p part) [] []) := by
          rw [goodTree_node]
          exact ⟨fun w hw => (by cases hw), fun e he => (by cases he)⟩
        obtain ⟨hp', hg'⟩ := ih (DNode.node part (joinComp p part) [] []) v hleafp hleafg hfold
        simp only [insertAt, hl]
        constructor
        · rw [pathsOk_node]
          intro e he
          rcases List.mem_append.mp he with h1 | h2
          · exact pathsOk_node.mp hp e h1
          · rcases List.mem_singleton.mp h2 with rfl
            refine ⟨?_, hp'⟩
            rw [show ((part, insertAt (DNode.node part (joinComp p part) [] []) parts v) :
              String × DNode).2 = insertAt (DNode.node part (joinComp p part) [] []) parts v
              from rfl, insertAt_path]
            rfl
        · rw [goodTree_node]
          obtain ⟨hfs, hchg⟩ := goodTree_node.mp hg
          refine ⟨hfs, ?_⟩
          intro e he
          rcases List.mem_append.mp he with h1 | h2
          · exact hchg e h1
          · rcases List.mem_singleton.mp h2 with rfl
            exact hg'

/-- Folding `AddVideo` over clean records preserves both invariants. -/
theorem foldl_addVideo_invariants :
    ∀ (videos : List TVid) (t : DNode),
      pathsOk t → goodTree t → (∀ v ∈ videos, cleanComps v.loc) →
      pathsOk (videos.foldl addVideo t) ∧ goodTree (videos.foldl addVideo t) := by
  intro videos
  induction videos with
  | nil =>
    intro t hp hg _
    exact ⟨hp, hg⟩
  | cons v vs ih =>
    intro t hp hg hcl
    simp only [List.foldl_cons]
    have hfold : List.foldl joinComp t.path (relComps t.path v.loc) = v.loc :=
      foldl_joinComp_relComps t.path v.loc (hcl v (List.mem_cons_self v vs))
    obtain ⟨hp', hg'⟩ := insertAt_invariants (relComps t.path v.loc) t v hp hg hfold
    exact ih (addVideo t v) hp' hg' (fun w hw => hcl w (List.mem_cons_of_mem v hw))

/-- C7.  For any set of records with clean absolute directories, building
the index places each record in exactly one node — the node whose path
equals the record's containing directory — and any run of
`filterFiles(root, predicate = true, recursive = true)` returns exactly the
full input set, order-insensitively. -/
theorem C7_index_partition (base : List String) (videos : List TVid)
    (hbase : cleanComps base) (hloc : ∀ v ∈ videos, cleanComps v.loc) :
    (∀ out, FilterRun (fun _ => true) true (buildTree base videos) out →
      out.Perm videos) ∧
    (∀ v ∈ videos, ∃ n, n ∈ subnodes (buildTree base videos) ∧
      v ∈ n.files ∧ n.path = v.loc) ∧
    (videos.Nodup → ∀ v ∈ videos,
      ((subnodes (buildTree base videos)).map (fun n => n.files.count v)).sum = 1) := by
  have hperm : (filterAll (fun _ => true) (buildTree base videos)).Perm videos := by
    have h := filterAll_foldl_addVideo (fun _ => true) videos
      (.node (base.getLastD "/") base [] [])
    simpa [buildTree, filterAll, filterAllL, List.filter_true] using h
  have hrootp : pathsOk (DNode.node (base.getLastD "/") base [] []) := by
    rw [pathsOk_node]
    intro e he
    cases he
  have hrootg : goodTree (DNode.node (base.getLastD "/") base [] []) := by
    rw [goodTree_node]
    exact ⟨fun w hw => (by cases hw), fun e he => (by cases he)⟩
  obtain ⟨hp, hg⟩ := foldl_addVideo_invariants videos _ hrootp hrootg hloc
  refine ⟨?_, ?_, ?_⟩
  · intro out hrun
    exact (filterRun_perm _ out hrun).trans hperm
  · intro v hv
    have hmem : v ∈ filterAll (fun _ => true) (buildTree base videos) :=
      hperm.mem_iff.mpr hv
    rw [filterAll_true_eq] at hmem
    obtain ⟨l, hl, hvl⟩ := List.mem_flatten.mp hmem
    obtain ⟨n, hn, rfl⟩ := List.mem_map.mp hl
    exact ⟨n, hn, hvl, hg n hn v hvl⟩
  · intro hnd v hv
    have h1 : (filterAll (fun _ => true) (buildTree base videos)).count v = 1 := by
      rw [hperm.count_eq]
      exact List.count_eq_one_of_mem hnd hv
    rw [filterAll_true_eq, List.count_flatten, List.map_map] at h1
    exact h1

/-- C7 witness: the spec's end-to-end scenario — three records, two in
/lib/a and one in /lib/b, built from base /lib; the first record sits in
exactly one node. -/
theorem C7_index_partition_witness :
    ((subnodes (buildTree ["lib"]
      [⟨["lib", "a", "x1.mp4"], ["lib", "a"]⟩,
       ⟨["lib", "a", "x2.mp4"], ["lib", "a"]⟩,
       ⟨["lib", "b", "y.mp4"], ["lib", "b"]⟩])).map
      (fun n => n.files.count ⟨["lib", "a", "x1.mp4"], ["lib", "a"]⟩)).sum = 1 := by
  have h := C7_index_partition ["lib"]
    [⟨["lib", "a", "x1.mp4"], ["lib", "a"]⟩,
     ⟨["lib", "a", "x2.mp4"], ["lib", "a"]⟩,
     ⟨["lib", "b", "y.mp4"], ["lib", "b"]⟩] (by decide) (by decide)
  exact h.2.2 (by decide) _ (by decide)

/-- First demonstration run: child A's block before child B's. -/
theorem demoRun_ab : FilterRun (fun _ => true) true demoTree [demoA, demoB] := by
  have hA : FilterRun (fun _ => true) true demoNodeA [demoA] := by
    have h : FilterRun (fun _ => true) true (DNode.node "A" ["r", "A"] [] [demoA])
        (([demoA].filter (fun _ => true)) ++ ([] : List (List TVid)).flatten) :=
      FilterRun.deep "A" ["r", "A"] [] [demoA] [] [] FilterRunEach.nil (List.Perm.refl [])
    simpa [demoNodeA, demoA] using h
  have hB : FilterRun (fun _ => true) true demoNodeB [demoB] := by
    have h : FilterRun (fun _ => true) true (DNode.node "B" ["r", "B"] [] [demoB])
        (([demoB].filter (fun _ => true)) ++ ([] : List (List TVid)).flatten) :=
      FilterRun.deep "B" ["r", "B"] [] [demoB] [] [] FilterRunEach.nil (List.Perm.refl [])
    simpa [demoNodeB, demoB] using h
  have hE : FilterRunEach (fun _ => true) [("A", demoNodeA), ("B", demoNodeB)]
      [[demoA], [demoB]] :=
    FilterRunEach.cons "A" demoNodeA _ _ _ hA
      (FilterRunEach.cons "B" demoNodeB _ _ _ hB FilterRunEach.nil)
  have h : FilterRun (fun _ => true) true
      (DNode.node "r" ["r"] [("A", demoNodeA), ("B", demoNodeB)] [])
      (([] : List TVid).filter (fun _ => true) ++
        ([[demoA], [demoB]] : List (List TVid)).flatten) :=
    FilterRun.deep "r" ["r"] _ [] [[demoA], [demoB]] [[demoA], [demoB]] hE
      (List.Perm.refl _)
  simpa [demoTree] using h

/-- Second demonstration run: the map iteration visited B first. -/
theorem demoRun_ba : FilterRun (fun _ => true) true demoTree [demoB, demoA] := by
  have hA : FilterRun (fun _ => true) true demoNodeA [demoA] := by
    have h : FilterRun (fun _ => true) true (DNode.node "A" ["r", "A"] [] [demoA])
        (([demoA].filter (fun _ => true)) ++ ([] : List (List TVid)).flatten) :=
      FilterRun.deep "A" ["r", "A"] [] [demoA] [] [] FilterRunEach.nil (List.Perm.refl [])
    simpa [demoNodeA, demoA] using h
  have hB : FilterRun (fun _ => true) true demoNodeB [demoB] := by
    have h : FilterRun (fun _ => true) true (DNode.node "B" ["r", "B"] [] [demoB])
        (([demoB].filter (fun _ => true)) ++ ([] : List (List TVid)).flatten) :=
      FilterRun.deep "B" ["r", "B"] [] [demoB] [] [] FilterRunEach.nil (List.Perm.refl [])
    simpa [demoNodeB, demoB] using h
  have hE : FilterRunEach (fun _ => true) [("A", demoNodeA), ("B", demoNodeB)]
      [[demoA], [demoB]] :=
    FilterRunEach.cons "A" demoNodeA _ _ _ hA
      (FilterRunEach.cons "B" demoNodeB _ _ _ hB FilterRunEach.nil)
  have h : FilterRun (fun _ => true) true
      (DNode.node "r" ["r"] [("A", demoNodeA), ("B", demoNodeB)] [])
      (([] : List TVid).filter (fun _ => true) ++
        ([[demoB], [demoA]] : List (List TVid)).flatten) :=
    FilterRun.deep "r" ["r"] _ [] [[demoA], [demoB]] [[demoB], [demoA]] hE
      (List.Perm.swap [demoB] [demoA] [])
  simpa [demoTree] using h

/-- C8 counterexample.  On the same unchanged two-child tree, two runs of
recursive filterFiles with the always-true predicate can return [demoA,
demoB] and [demoB, demoA] — different sequences — because the source
iterates the children with a Go map `range`, whose order is randomized per
call; the order is not a function of the tree alone. -/
theorem C8_order_nondet_counterexample :
    FilterRun (fun _ => true) true demoTree [demoA, demoB] ∧
    FilterRun (fun _ => true) true demoTree [demoB, demoA] ∧
    [demoA, demoB] ≠ [demoB, demoA] := by
  refine ⟨demoRun_ab, demoRun_ba, by decide⟩

/-- C8, amended.  Non-recursive filterFiles is deterministic — it returns
exactly the node's own files, filtered, in stored order; recursive
filterFiles returns a sequence whose multiset (but not order) is a function
of the tree alone: any two runs on the same unchanged tree return
permutations of each other. -/
theorem C8_filter_order_amended :
    (∀ (f : TVid → Bool) (n : DNode) (out : List TVid),
      FilterRun f false n out → out = n.files.filter f) ∧
    (∀ (f : TVid → Bool) (n : DNode) (out1 out2 : List TVid),
      FilterRun f true n out1 → FilterRun f true n out2 → out1.Perm out2) := by
  refine ⟨fun f n out h => filterRun_flat_eq h, fun f n o1 o2 h1 h2 => ?_⟩
  exact (filterRun_perm n o1 h1).trans (filterRun_perm n o2 h2).symm

/-- C8 witness: the amended theorem applied to the two demonstration runs
forces their outputs to be permutations of each other. -/
theorem C8_filter_order_amended_witness :
    ([demoA, demoB] : List TVid).Perm [demoB, demoA] :=
  C8_filter_order_amended.2 (fun _ => true) demoTree [demoA, demoB] [demoB, demoA]
    demoRun_ab demoRun_ba

/-- C5.  For every selection and every maxConcurrent N ≥ 1, the local
scheduler never has more than N jobs holding an admission slot
simultaneously (each job takes a slot on the buffered channel before launch
and frees it only on termination), and the dispatched sequence is always a
prefix of the selection (FIFO admission in selection order). -/
theorem C5_admission_bound (selection : List VideoPath) (N : ℕ) (hN : 1 ≤ N)
    (s : SchedState) (h : SchedReach N (schedInit selection) s) :
    s.running ≤ N ∧ s.dispatched ++ s.pending = selection ∧
      s.dispatched <+: selection := by
  have main : s.running ≤ N ∧ s.dispatched ++ s.pending = selection := by
    induction h with
    | refl => exact ⟨Nat.zero_le N, rfl⟩
    | step t u hreach hstep ih =>
      obtain ⟨ih1, ih2⟩ := ih
      cases hstep with
      | dispatch v pending running dispatched hlt =>
        refine ⟨hlt, ?_⟩
        simp only [SchedState.dispatched, SchedState.pending] at ih2 ⊢
        rw [List.append_assoc, List.singleton_append]
        exact ih2
      | finish pending running dispatched =>
        simp only [SchedState.running, SchedState.dispatched, SchedState.pending]
          at ih1 ih2 ⊢
        exact ⟨by omega, ih2⟩
  exact ⟨main.1, main.2, ⟨s.pending, main.2⟩⟩

/-- C5 witness: selection of two records, N = 2, after dispatching the
first record. -/
theorem C5_admission_bound_witness :
    (SchedState.mk [⟨"/b.mp4".toList⟩] 1 [⟨"/a.mp4".toList⟩]).running ≤ 2 ∧
    (SchedState.mk [⟨"/b.mp4".toList⟩] 1 [⟨"/a.mp4".toList⟩]).dispatched ++
      (SchedState.mk [⟨"/b.mp4".toList⟩] 1 [⟨"/a.mp4".toList⟩]).pending =
      [⟨"/a.mp4".toList⟩, ⟨"/b.mp4".toList⟩] ∧
    (SchedState.mk [⟨"/b.mp4".toList⟩] 1 [⟨"/a.mp4".toList⟩]).dispatched <+:
      [⟨"/a.mp4".toList⟩, ⟨"/b.mp4".toList⟩] :=
  C5_admission_bound [⟨"/a.mp4".toList⟩, ⟨"/b.mp4".toList⟩] 2 (by norm_num) _
    (SchedReach.step _ _ _ (SchedReach.refl _)
      (SchedStep.dispatch ⟨"/a.mp4".toList⟩ [⟨"/b.mp4".toList⟩] 0 [] (by norm_num)))

/-- With distinct worker names, a name identifies its slot in the roster. -/
theorem workerName_inj {roster : List WorkerSlot}
    (hnd : (roster.map WorkerSlot.name).Nodup) {w w' : WorkerSlot}
    (hw : w ∈ roster) (hw' : w' ∈ roster) (h : w.name = w'.name) : w = w' :=
  List.inj_on_of_nodup_map hnd hw hw' h

/-- C6.  For every worker slot of a roster with distinct names, the credit
count never goes negative and never exceeds the configured capacity in any
reachable credit state (so a capacity-2 worker never has more than 2
outstanding dispatches before a credit is returned), and a completion
callback naming an unrecognized worker leaves every credit pool unchanged
while still being acknowledged. -/
theorem C6_credit_invariant :
    (∀ roster : List WorkerSlot, (roster.map WorkerSlot.name).Nodup →
      ∀ s, CreditReach roster (initCredits roster) s →
      ∀ w ∈ roster, 0 ≤ s w.name ∧ s w.name ≤ (w.capacity : ℤ)) ∧
    (∀ (roster : List WorkerSlot) (s : String → ℤ) (nm : String),
      roster.find? (fun w => w.name = nm) = none →
      callbackStep roster s nm = (s, true)) := by
  constructor
  · intro roster hnd s hreach
    induction hreach with
    | refl =>
      intro w hw
      cases hfind : roster.find? (fun w' => w'.name = w.name) with
      | none =>
        rw [List.find?_eq_none] at hfind
        exact absurd (by simp) (hfind w hw)
      | some w0 =>
        have hmem := List.mem_of_find?_eq_some hfind
        have hname : w0.name = w.name := by simpa using List.find?_some hfind
        have hew : w0 = w := workerName_inj hnd hmem hw hname
        subst hew
        unfold initCredits
        rw [hfind]
        exact ⟨Int.ofNat_nonneg _, le_refl _⟩
    | step t u hreach' hstep ih =>
      intro w hw
      cases hstep with
      | dispatch w0 hw0 hge =>
        by_cases hname : w.name = w0.name
        · have hew : w = w0 := workerName_inj hnd hw hw0 hname
          subst hew
          simp only [if_pos rfl]
          obtain ⟨hlo, hhi⟩ := ih w hw
          omega
        · simp only [if_neg hname]
          exact ih w hw
      | errorReturn w0 hw0 hlt =>
        by_cases hname : w.name = w0.name
        · have hew : w = w0 := workerName_inj hnd hw hw0 hname
          subst hew
          simp only [if_pos rfl]
          obtain ⟨hlo, hhi⟩ := ih w hw
          omega
        · simp only [if_neg hname]
          exact ih w hw
      | callback nm =>
        cases hfind : roster.find? (fun w' => w'.name = nm) with
        | none =>
          simp only [callbackStep, hfind]
          exact ih w hw
        | some w0 =>
          have hmem := List.mem_of_find?_eq_some hfind
          have hname0 : w0.name = nm := by simpa using List.find?_some hfind
          simp only [callbackStep, hfind]
          by_cases hcap : t nm < (w0.capacity : ℤ)
          · simp only [if_pos hcap]
            by_cases hname : w.name = nm
            · have hew : w = w0 := workerName_inj hnd hw hmem (by rw [hname, hname0])
              subst hew
              simp only [if_pos hname]
              obtain ⟨hlo, hhi⟩ := ih w hw
              rw [← hname] at hcap ⊢
              omega
            · simp only [if_neg hname]
              exact ih w hw
          · simp only [if_neg hcap]
            exact ih w hw
  · intro roster s nm hfind
    simp [callbackStep, hfind]

/-- C6 witness: the hardcoded roster of StartAPITranscoding at its initial
(fully credited) state, and an unrecognized callback name. -/
theorem C6_credit_invariant_witness :
    (0 ≤ initCredits demoRoster (WorkerSlot.mk "Server1" 2).name ∧
      initCredits demoRoster (WorkerSlot.mk "Server1" 2).name ≤
        ((WorkerSlot.mk "Server1" 2).capacity : ℤ)) ∧
    callbackStep demoRoster (initCredits demoRoster) "Nope" =
      (initCredits demoRoster, true) := by
  constructor
  · exact C6_credit_invariant.1 demoRoster (by decide) (initCredits demoRoster)
      (CreditReach.refl _) ⟨"Server1", 2⟩ (by decide)
  · exact C6_credit_invariant.2 demoRoster (initCredits demoRoster) "Nope" (by decide)

/-- C2: the dispatch loop evaluated at the failing inputs.  With one
eligible record and every credit taken, the roster scan falls through every
`default` and the record is skipped outright — zero dispatch requests, no
retry.  With one record and all servers idle, the loop issues one dispatch
per idle server (three), because the `break` after a dispatch terminates
only the `select` statement, not the server `for` loop.  Both contradict
the claim that each record is dispatched exactly once, with polling until a
credit becomes available. -/
theorem C2_dispatch_loop_behavior :
    (dispatchLoop [⟨"/v.mp4".toList⟩]
      [("Server1", 0), ("Server2", 0), ("Server3", 0)]).2 = [] ∧
    (dispatchLoop [⟨"/v.mp4".toList⟩]
      [("Server1", 2), ("Server2", 3), ("Server3", 3)]).2 =
      [("Server1", ⟨"/v.mp4".toList⟩), ("Server2", ⟨"/v.mp4".toList⟩),
        ("Server3", ⟨"/v.mp4".toList⟩)] := by
  constructor <;> decide

/-- C1: the per-job control flow evaluated at the failing inputs.  When the
encoder process exits with failure (waitOk = false), the function returns
with the job's progress entry still in the map and the ordered key list —
only the success path deletes it — and persists nothing.  When instead the
output-size probe fails in APITranscode (outSizeOk = false), the missing
`return` makes the function send the failure callback AND then fall through
to send a success callback whose result carries NewSize 0.  Both contradict
the claim that a failed job removes its progress entry and never reports
success. -/
theorem C1_perjob_failure_behavior :
    (TranscodeAndRenameVideo ⟨true, true, true, false, true, 50⟩
      ⟨[], [], []⟩ "/v.mp4".toList).progressMap = ["/v.mp4".toList] ∧
    (TranscodeAndRenameVideo ⟨true, true, true, false, true, 50⟩
      ⟨[], [], []⟩ "/v.mp4".toList).inserted = [] ∧
    (TranscodeAndRenameVideo ⟨true, true, false, true, true, 50⟩
      ⟨[], [], []⟩ "/v.mp4".toList).progressMap = ["/v.mp4".toList] ∧
    (APITranscode ⟨true, true, true, true, false, 0⟩
      ⟨[], [], []⟩ "/v.mp4".toList).2 =
      [CallbackMsg.failed "/v.mp4".toList, CallbackMsg.success "/v.mp4".toList 0] := by
  refine ⟨by decide, by decide, by decide, by decide⟩

/-- Preservation of the tracker invariant by one admissible operation. -/
theorem applyEvent_inv (st : JobState) (e : TrackerEvent) (hok : eventOk st e)
    (h1 : st.progressKeys.Nodup) (h2 : displayKeys st = st.progressMap) :
    (applyEvent st e).progressKeys.Nodup ∧
      displayKeys (applyEvent st e) = (applyEvent st e).progressMap := by
  have hsub : ∀ k ∈ st.progressMap, k ∈ st.progressKeys := by
    intro k hk
    rw [← h2] at hk
    exact (List.mem_filter.mp hk).1
  cases e with
  | register k =>
    by_cases hk : k ∈ st.progressMap
    · simpa [applyEvent, registerProgress, hk] using ⟨h1, h2⟩
    · have hkk : k ∉ st.progressKeys := by
        rcases hok with hok | hok
        · exact absurd hok hk
        · exact hok
      constructor
      · simp only [applyEvent, registerProgress, if_neg hk]
        rw [List.nodup_append]
        refine ⟨h1, List.nodup_singleton k, ?_⟩
        intro a ha hmem
        rcases List.mem_singleton.mp hmem with rfl
        exact hkk ha
      · simp only [displayKeys, applyEvent, registerProgress, if_neg hk]
        rw [List.filter_append]
        have e1 : st.progressKeys.filter
            (fun x => decide (x ∈ st.progressMap ++ [k])) =
            st.progressKeys.filter (fun x => decide (x ∈ st.progressMap)) := by
          apply List.filter_congr
          intro x hx
          rw [decide_eq_decide]
          constructor
          · intro hmem
            rcases List.mem_append.mp hmem with hm | hm
            · exact hm
            · rcases List.mem_singleton.mp hm with rfl
              exact absurd hx hkk
          · intro hm
            exact List.mem_append_left _ hm
        rw [e1]
        have e2 : ([k] : List (List Char)).filter
            (fun x => decide (x ∈ st.progressMap ++ [k])) = [k] := by
          simp
        rw [e2]
        rw [show st.progressKeys.filter (fun x => decide (x ∈ st.progressMap)) =
          st.progressMap from h2]
  | stop k =>
    refine ⟨by simpa [applyEvent, removeProgress] using h1, ?_⟩
    simp only [displayKeys, applyEvent, removeProgress]
    have e1 : st.progressKeys.filter
        (fun x => decide (x ∈ st.progressMap.filter (fun y => decide (y ≠ k)))) =
        (st.progressKeys.filter (fun x => decide (x ∈ st.progressMap))).filter
          (fun y => decide (y ≠ k)) := by
      rw [List.filter_filter]
      apply List.filter_congr
      intro x hx
      simp [List.mem_filter, Bool.decide_and, Bool.and_comm]
    rw [e1, show st.progressKeys.filter (fun x => decide (x ∈ st.progressMap)) =
      st.progressMap from h2]

/-- The tracker invariant along any admissible operation sequence. -/
theorem okTrace_inv :
    ∀ (evs : List TrackerEvent) (st : JobState), st.progressKeys.Nodup →
      displayKeys st = st.progressMap → OkTrace st evs →
      (evs.foldl applyEvent st).progressKeys.Nodup ∧
        displayKeys (evs.foldl applyEvent st) =
          (evs.foldl applyEvent st).progressMap := by
  intro evs
  induction evs with
  | nil =>
    intro st h1 h2 _
    exact ⟨h1, h2⟩
  | cons e evs ih =>
    intro st h1 h2 htr
    cases htr with
    | cons _ _ _ hok htr2 =>
      obtain ⟨h1a, h2a⟩ := applyEvent_inv st e hok h1 h2
      simpa [List.foldl_cons] using ih (applyEvent st e) h1a h2a htr2

/-- In a duplicate-free list, a member is counted exactly once. -/
theorem count_eq_one_of_nodup_mem {α : Type} [BEq α] [LawfulBEq α] {l : List α}
    {a : α} (h : l.Nodup) (ha : a ∈ l) : l.count a = 1 := by
  induction l with
  | nil => cases ha
  | cons x xs ih =>
    obtain ⟨hx, hxs⟩ := List.nodup_cons.mp h
    rw [List.count_cons]
    rcases List.mem_cons.mp ha with rfl | hmem
    · rw [List.count_eq_zero.mpr hx]
      simp
    · have hne : ¬(x == a) = true := by
        intro hbeq
        exact hx (eq_of_beq hbeq ▸ hmem)
      rw [ih hxs hmem]
      simp [hne]

/-- C10 counterexample.  Registering a path, removing it when its job
terminates, and registering the same path again (possible whenever the same
file is transcoded twice in one process, e.g. two submissions to the
long-lived transcode server) appends the key to progressKeys a second time,
because the absence check consults only the map: the key is then in the map
but appears TWICE in the ordered list, and the display loop renders that
one job twice. -/
theorem C10_duplicate_key_counterexample :
    (runTracker [TrackerEvent.register "/v.mp4".toList,
      TrackerEvent.stop "/v.mp4".toList,
      TrackerEvent.register "/v.mp4".toList]).progressKeys.count "/v.mp4".toList = 2 ∧
    "/v.mp4".toList ∈ (runTracker [TrackerEvent.register "/v.mp4".toList,
      TrackerEvent.stop "/v.mp4".toList,
      TrackerEvent.register "/v.mp4".toList]).progressMap ∧
    displayKeys (runTracker [TrackerEvent.register "/v.mp4".toList,
      TrackerEvent.stop "/v.mp4".toList,
      TrackerEvent.register "/v.mp4".toList]) =
      ["/v.mp4".toList, "/v.mp4".toList] := by
  refine ⟨by decide, by decide, by decide⟩

/-- C10, amended.  As long as no key is re-registered after having been
removed, every key in the progress map appears exactly once in the ordered
key list, and the display renders exactly the jobs currently in the map in
first-registration order; removing a job deletes its map entry but leaves
its key in the ordered list permanently, and such stale keys are skipped by
the display. -/
theorem C10_tracker_invariant_amended :
    (∀ evs : List TrackerEvent, OkTrace ⟨[], [], []⟩ evs →
      (runTracker evs).progressKeys.Nodup ∧
      displayKeys (runTracker evs) = (runTracker evs).progressMap ∧
      ∀ k ∈ (runTracker evs).progressMap,
        (runTracker evs).progressKeys.count k = 1) ∧
    (∀ (st : JobState) (k : List Char),
      (removeProgress st k).progressKeys = st.progressKeys ∧
      k ∉ (removeProgress st k).progressMap) := by
  constructor
  · intro evs htr
    obtain ⟨h1, h2⟩ := okTrace_inv evs ⟨[], [], []⟩ (by simp)
      (by simp [displayKeys]) htr
    have h1r : (runTracker evs).progressKeys.Nodup := h1
    have h2r : displayKeys (runTracker evs) = (runTracker evs).progressMap := h2
    refine ⟨h1r, h2r, ?_⟩
    intro k hk
    have hkk : k ∈ (runTracker evs).progressKeys := by
      have hmem : k ∈ displayKeys (runTracker evs) := by
        rw [h2r]
        exact hk
      exact (List.mem_filter.mp hmem).1
    exact count_eq_one_of_nodup_mem h1r hkk
  · intro st k
    refine ⟨rfl, ?_⟩
    intro hk
    have h := (List.mem_filter.mp hk).2
    simp at h

/-- C10 witness: register two distinct paths, stop the first; the second
path still appears exactly once in the ordered key list. -/
theorem C10_tracker_invariant_amended_witness :
    (runTracker [TrackerEvent.register "/a.mp4".toList,
      TrackerEvent.register "/b.mp4".toList,
      TrackerEvent.stop "/a.mp4".toList]).progressKeys.count "/b.mp4".toList = 1 := by
  have h := C10_tracker_invariant_amended.1
    [TrackerEvent.register "/a.mp4".toList, TrackerEvent.register "/b.mp4".toList,
      TrackerEvent.stop "/a.mp4".toList]
    (OkTrace.cons _ _ _ (by decide) (OkTrace.cons _ _ _ (by decide)
      (OkTrace.cons _ _ _ (by decide) (OkTrace.nil _))))
  exact h.2.2 _ (by decide)
